import Mathlib

/-!
A shallow embedding of the core of `ckb-transactions-simulator` (cell ledger,
chain synchronizer, input selector, transaction builder and signer), translated
from the Rust sources (`src/storage.rs`, `src/config/run.rs`, `src/types/*.rs`),
together with proofs about the embedded definitions.

Machine integers (`u64`, `u32`) are modelled as `Nat`; wherever the source
performs unchecked `u64` arithmetic that can wrap in a release build, the
wrap is made explicit with `% 2^64`.  Fallible Rust code returning
`Result<_, Error>` is modelled with `Except String`; a Rust panic
(out-of-bounds slice index, arithmetic overflow trap) is modelled by a
dedicated outcome constructor where a claim depends on it.
-/

namespace CkbSim

/-- Modulus of Rust `u64` arithmetic. -/
def U64MOD : Nat := 18446744073709551616

/-- `BYTE_SHANNONS` from `src/config/run.rs`: shannons per byte of capacity. -/
def BYTE_SHANNONS : Nat := 100000000

/-- Wrapping `u64` subtraction (release-profile semantics of `a - b`). -/
def wrapSub (a b : Nat) : Nat := (a % U64MOD + (U64MOD - b % U64MOD)) % U64MOD

/-- Wrapping `u64` addition (release-profile semantics of `a + b`). -/
def wrapAdd (a b : Nat) : Nat := (a + b) % U64MOD

/-- Wrapping `u64` multiplication. -/
def wrapMul (a b : Nat) : Nat := a * b % U64MOD

/-- Little-endian 4-byte encoding of a `u32` (molecule `Uint32`). -/
def u32le (n : Nat) : List Nat :=
  [n % 256, n / 256 % 256, n / 65536 % 256, n / 16777216 % 256]

/-- Little-endian 8-byte encoding of a `u64` (molecule `Uint64`,
`u64::to_le_bytes`). -/
def u64le (n : Nat) : List Nat :=
  [n % 256, n / 256 % 256, n / 65536 % 256, n / 16777216 % 256,
   n / 4294967296 % 256, n / 1099511627776 % 256,
   n / 281474976710656 % 256, n / 72057594037927936 % 256]

/-- Big-endian 8-byte encoding of a `u64` (`u64::to_be_bytes`, used by
`Storage::put_prev_number`). -/
def u64be (n : Nat) : List Nat :=
  [n / 72057594037927936 % 256, n / 281474976710656 % 256,
   n / 1099511627776 % 256, n / 4294967296 % 256,
   n / 16777216 % 256, n / 65536 % 256, n / 256 % 256, n % 256]

/-- Big-endian decoding (`u64::from_be_bytes`, used by
`Storage::get_next_number`). -/
def beToNat (bs : List Nat) : Nat := bs.foldl (fun acc b => acc * 256 + b) 0

/-- Little-endian decoding (molecule `Uint64` unpack, used by
`CellInfo::from_slice`). -/
def leToNat (bs : List Nat) : Nat := bs.foldr (fun b acc => b + 256 * acc) 0

/-- An out-point `(tx_hash, index)`; `tx_hash` is the 32-byte hash as a byte
list (`packed::OutPoint`, `src/types/init.rs`). -/
structure OutPoint where
  txHash : List Nat
  index : Nat
deriving DecidableEq

/-- Serialized `packed::OutPoint` (molecule struct: `Byte32` then `Uint32`),
the key under which cells are stored (`Storage::add_cell`). -/
def OutPoint.toBytes (op : OutPoint) : List Nat := op.txHash ++ u32le op.index

/-- A cell record: capacity in shannons and the 32-byte owner lock hash
(`CellInfo`, `src/types/storage.rs`). -/
structure CellInfo where
  capacity : Nat
  lockHash : List Nat
deriving DecidableEq

/-- `CellInfo::to_vec`: 8-byte little-endian capacity followed by the 32-byte
lock hash (the 40-byte stored value layout). -/
def CellInfo.toVec (c : CellInfo) : List Nat := u64le c.capacity ++ c.lockHash

/-- An input candidate: out-point plus its cell record (`InputInfo`,
`src/types/mod.rs`). -/
structure InputInfo where
  outPoint : OutPoint
  cellInfo : CellInfo
deriving DecidableEq

/-! ### The key-value column families of the cell ledger (`src/storage.rs`)

Each rocksdb column family is modelled as an association list from out-points
to cell records, with `kvGet`/`kvPut`/`kvDel` mirroring `get_cf`/`put_cf`/
`delete_cf` (a `put` overwrites any existing entry for the same key). -/

def kvGet : List (OutPoint × CellInfo) → OutPoint → Option CellInfo
  | [], _ => none
  | e :: m, k => if e.1 = k then some e.2 else kvGet m k

def kvDel : List (OutPoint × CellInfo) → OutPoint → List (OutPoint × CellInfo)
  | [], _ => []
  | e :: m, k => if e.1 = k then kvDel m k else e :: kvDel m k

def kvPut (m : List (OutPoint × CellInfo)) (k : OutPoint) (v : CellInfo) :
    List (OutPoint × CellInfo) :=
  (k, v) :: kvDel m k

/-- The persistent state of the cell ledger: the `cells` (spendable) column
family, the `cache` (locally-spent, pending) column family, and the raw bytes
stored under the `next-block-number` key. -/
structure LedgerState where
  cells : List (OutPoint × CellInfo)
  cache : List (OutPoint × CellInfo)
  prevNumberBytes : Option (List Nat)
deriving DecidableEq

/-- The empty ledger produced by `Storage::init`. -/
def LedgerState.empty : LedgerState := ⟨[], [], none⟩

/-- `Storage::add_cell`: insert a record into the spendable set
(`put_cf(cells, op, info)`); the cache is untouched. -/
def add_cell (st : LedgerState) (op : OutPoint) (info : CellInfo) : LedgerState :=
  { st with cells := kvPut st.cells op info }

/-- Error message produced by `Storage::spend_cell` on a missing cell. -/
def spendErrMsg : String := "storage error: cell should exists"

/-- `Storage::spend_cell`: read the record from `cells` (error if absent),
delete it from `cells` and write the same value bytes into `cache`. -/
def spend_cell (st : LedgerState) (op : OutPoint) : Except String LedgerState :=
  match kvGet st.cells op with
  | none => .error spendErrMsg
  | some info =>
    .ok { st with cells := kvDel st.cells op, cache := kvPut st.cache op info }

/-- `Storage::rm_cell`: delete the out-point from both column families
unconditionally. -/
def rm_cell (st : LedgerState) (op : OutPoint) : LedgerState :=
  { st with cells := kvDel st.cells op, cache := kvDel st.cache op }

/-- `Storage::put_prev_number`: store the height as 8 big-endian bytes. -/
def put_prev_number (st : LedgerState) (n : Nat) : LedgerState :=
  { st with prevNumberBytes := some (u64be n) }

/-- `Storage::get_next_number`: decode the stored big-endian bytes and add 1
(the stored value is the last fully-processed height).  The `+ 1` is an
unchecked `u64` addition, so in a release build it wraps to 0 at a stored
cursor of `u64::MAX`; the wrap is explicit here. -/
def get_next_number (st : LedgerState) : Option Nat :=
  st.prevNumberBytes.map (fun bs => (beToNat (bs.take 8) + 1) % U64MOD)

/-- States reachable from the empty store by the ledger operations the engine
performs.  The synchronizer (`synchronize` in `src/config/run.rs`) mutates the
cell sets only through `add_cell` (line 175) and `rm_cell` (line 181) plus the
cursor write, so every synchronizer round is a composition of these steps.
`add` carries the freshness condition of the claim: the chain never presents
the same out-point as a new output twice, so added out-points are not currently
tracked in either set.  A failing `spend_cell` leaves the state unchanged and
therefore needs no constructor. -/
inductive Reachable : LedgerState → Prop
  | init : Reachable LedgerState.empty
  | add {st op info} : Reachable st → kvGet st.cells op = none →
      kvGet st.cache op = none → Reachable (add_cell st op info)
  | spend {st st' op} : Reachable st → spend_cell st op = .ok st' → Reachable st'
  | remove {st op} : Reachable st → Reachable (rm_cell st op)
  | putNum {st n} : Reachable st → Reachable (put_prev_number st n)

/-! ### Lock schemes and accounts (`src/types/init.rs`, `src/types/mod.rs`) -/

/-- The closed set of lock scheme identifiers (`LockScriptId`); the Rust
`derive(Ord)` orders the variants in declaration order. -/
inductive LockScriptId
  | secp256k1Blake160
  | pwLockK1Acpl
deriving DecidableEq

def LockScriptId.toNat : LockScriptId → Nat
  | .secp256k1Blake160 => 0
  | .pwLockK1Acpl => 1

/-- `derive(Ord)` comparison for `LockScriptId`. -/
def idLeP (a b : LockScriptId) : Prop := a.toNat ≤ b.toNat

instance : DecidableRel idLeP := fun a b => Nat.decLe a.toNat b.toNat

/-- `LockInfo` (`src/types/mod.rs`): scheme id, serialized lock script bytes,
and the raw secret key bytes. -/
structure LockInfo where
  id : LockScriptId
  script : List Nat
  secretKey : List Nat
deriving DecidableEq

/-- Lookup in the account map (keyed by 32-byte lock hash). -/
def accGet : List (List Nat × LockInfo) → List Nat → Option LockInfo
  | [], _ => none
  | e :: m, k => if e.1 = k then some e.2 else accGet m k

/-- Lookup in the per-scheme cell-dep dictionary
(`MetaData::lock_deps_dict`). -/
def depsGet : List (LockScriptId × List (List Nat)) → LockScriptId →
    Option (List (List Nat))
  | [], _ => none
  | e :: m, k => if e.1 = k then some e.2 else depsGet m k

/-! ### Synchronizer (`synchronize`, `src/config/run.rs` lines 138-188) -/

/-- One transaction as seen by the scanner: its hash, its outputs as
`(capacity, serialized lock script)` pairs, and its inputs' previous
out-points. -/
structure TxData where
  hash : List Nat
  outputs : List (Nat × List Nat)
  inputs : List OutPoint
deriving DecidableEq

/-- The remote chain as seen through the client: tip height and the block
(its transaction list) at each height, `none` when the node has no block. -/
structure ChainEnv where
  tip : Nat
  blocks : Nat → Option (List TxData)

/-- The per-transaction output scan: for every enumerated output whose lock
script equals a managed account's script, insert a cell record keyed by
`(tx_hash, index)` owned by that account's lock hash.  The source iterates the
account `HashMap`; the model fixes the account list order. -/
def applyOutputs (accounts : List (List Nat × LockInfo)) (txHash : List Nat)
    (st : LedgerState) (outputs : List (Nat × List Nat)) : LedgerState :=
  outputs.enum.foldl
    (fun s p =>
      accounts.foldl
        (fun s2 a =>
          if p.2.2 = a.2.script then add_cell s2 ⟨txHash, p.1⟩ ⟨p.2.1, a.1⟩ else s2)
        s)
    st

/-- Scan one transaction: outputs first (insertions), then inputs
(unconditional removals). -/
def applyTx (accounts : List (List Nat × LockInfo)) (st : LedgerState)
    (tx : TxData) : LedgerState :=
  tx.inputs.foldl rm_cell (applyOutputs accounts tx.hash st tx.outputs)

/-- The heights scanned by one non-skipped round: `next_num..=(tip - delay)`.
The source computes `tip_num - delay_blocks` with unchecked `u64`
subtraction, so in a release build it wraps; the wrap is explicit.  An empty
Rust range (`next > upper`) iterates zero times, matching `Nat`
truncation. -/
def syncHeights (nextNum tipNum delayBlocks : Nat) : List Nat :=
  List.range' nextNum (wrapSub tipNum delayBlocks + 1 - nextNum)

/-- Process one height: fetch the block (an absent block is a runtime error),
scan all its transactions, then persist the cursor as this height. -/
def processHeight (env : ChainEnv) (accounts : List (List Nat × LockInfo))
    (st : LedgerState) (num : Nat) : Except String LedgerState :=
  match env.blocks num with
  | none => .error "block should exists but CKB node returns None"
  | some txs => .ok (put_prev_number (txs.foldl (applyTx accounts) st) num)

/-- `synchronize` (`src/config/run.rs`): read the cursor (defaulting to the
checkpoint start height), skip when `next_num + delay_blocks >= tip_num`,
otherwise scan every height up to `tip - delay` inclusive.  The skip test's
`next_num + delay_blocks` (line 154) is an unchecked `u64` addition that
wraps in a release build, so the model compares the tip against the wrapped
sum.  Returns the skip flag, the final ledger state and the list of
processed heights. -/
def synchronize (env : ChainEnv) (accounts : List (List Nat × LockInfo))
    (startBlock delayBlocks : Nat) (st : LedgerState) :
    Except String (Bool × LedgerState × List Nat) :=
  let nextNum := (get_next_number st).getD startBlock
  if env.tip ≤ wrapAdd nextNum delayBlocks then .ok (true, st, [])
  else do
    let hs := syncHeights nextNum env.tip delayBlocks
    let st' ← hs.foldlM (processHeight env accounts) st
    .ok (false, st', hs)

/-! ### Input selector (`fetch_more_inputs`, `src/config/run.rs` lines 196-234) -/

inductive FetchInputsResult
  | lack
  | next
  | enough
deriving DecidableEq

/-- `Capacity::safe_add` folded over a capacity list (`try_fold` in the
source): errors as soon as a partial sum leaves the `u64` range. -/
def safeAddFold : Nat → List Nat → Except String Nat
  | acc, [] => .ok acc
  | acc, c :: cs =>
    if acc + c < U64MOD then safeAddFold (acc + c) cs else .error "capacity overflow"

/-- `fetch_more_inputs`: pull the next spendable cell (if any) into the batch,
then classify the batch.  `nextCell` is the next item of the spendable
iterator (`none` when exhausted); the updated batch is returned alongside the
result. -/
def fetch_more_inputs (nextCell : Option InputInfo) (inputs : List InputInfo)
    (inputsLimit outputMinBytes expectedInputSize : Nat) :
    Except String (FetchInputsResult × List InputInfo) :=
  match nextCell with
  | none =>
    if inputs = [] then .ok (.lack, inputs)
    else do
      let total ← safeAddFold 0 (inputs.map (·.cellInfo.capacity))
      if total < (outputMinBytes + 1) * BYTE_SHANNONS then .ok (.lack, inputs)
      else .ok (.enough, inputs)
  | some cell => do
    let inputs2 := inputs ++ [cell]
    let total ← safeAddFold 0 (inputs2.map (·.cellInfo.capacity))
    if total < (outputMinBytes + 1) * BYTE_SHANNONS then .ok (.next, inputs2)
    else if min expectedInputSize inputsLimit ≤ inputs2.length then .ok (.enough, inputs2)
    else .ok (.next, inputs2)

/-! ### Stored-record decoding (`load_cells`, `src/storage.rs` lines 175-185) -/

/-- Outcome of reading the spendable column family back: a decoded list, a
storage error (failed molecule verification of a key), or a Rust panic
(out-of-bounds slice index while decoding a value). -/
inductive LoadOutcome
  | ok (cells : List InputInfo)
  | storageErr (msg : String)
  | panicked
deriving DecidableEq

/-- `packed::OutPoint::from_slice` (molecule-generated verified parse): an
`OutPoint` is a fixed 36-byte struct, a 32-byte `tx_hash` followed by a
little-endian `u32` index; any other length fails verification. -/
def OutPoint.from_slice (slice : List Nat) : Option OutPoint :=
  if slice.length = 36 then some ⟨slice.take 32, leToNat (slice.drop 32)⟩ else none

/-- `CellInfo::from_slice` (`src/types/storage.rs` lines 26-31): reads
`slice[0..8]` as a little-endian capacity and `slice[8..40]` as the lock hash
through **unchecked** constructors; a slice shorter than 40 bytes makes the
range indexing panic (`none` models the panic), longer slices are accepted
with the excess ignored. -/
def CellInfo.from_slice (slice : List Nat) : Option CellInfo :=
  if 40 ≤ slice.length then
    some ⟨leToNat (slice.take 8), (slice.drop 8).take 32⟩
  else none

/-- `Storage::load_cells`: iterate the `cells` column family in storage order,
parse each key as an `OutPoint` (a verification failure is surfaced as a
storage error through `collect::<Result<_>>`) and each value through
`CellInfo::from_slice` (which panics on a short value). -/
def load_cells : List (List Nat × List Nat) → LoadOutcome
  | [] => .ok []
  | (k, v) :: rest =>
    match OutPoint.from_slice k with
    | none => .storageErr "OutPoint verification failed"
    | some op =>
      match CellInfo.from_slice v with
      | none => .panicked
      | some info =>
        match load_cells rest with
        | .ok l => .ok (⟨op, info⟩ :: l)
        | e => e

/-! ### Input preparation (`prepare_inputs`, `src/config/run.rs` lines 236-258)

Rust's `sort_by_key` is a stable sort; the result of a stable sort with
respect to a total preorder is uniquely determined, so the structurally
recursive stable `List.insertionSort` computes exactly the same list. -/

/-- Lexicographic comparison of byte strings: the `Ord` instances of `H256`
and of Rust byte slices. -/
def lexLe : List Nat → List Nat → Bool
  | [], _ => true
  | _ :: _, [] => false
  | a :: as, b :: bs => if a < b then true else if b < a then false else lexLe as bs

/-- Strict lexicographic order on byte strings. -/
def lexLt (a b : List Nat) : Bool := lexLe a b && !lexLe b a

def bytesLeP (a b : List Nat) : Prop := lexLe a b = true

instance : DecidableRel bytesLeP := fun a b => instDecidableEqBool (lexLe a b) true

/-- Sort key of the first sort in `prepare_inputs`: the owning lock hash. -/
def hashLeP (a b : InputInfo) : Prop :=
  lexLe a.cellInfo.lockHash b.cellInfo.lockHash = true

instance : DecidableRel hashLeP :=
  fun a b => instDecidableEqBool (lexLe a.cellInfo.lockHash b.cellInfo.lockHash) true

/-- The `fold` of `prepare_inputs` lines 238-246: tag every input with
`is_first = (prev != Some(lock_hash))`, threading the previous lock hash. -/
def markFirsts : Option (List Nat) → List InputInfo → List (Bool × InputInfo)
  | _, [] => []
  | prev, x :: xs =>
    (decide (prev ≠ some x.cellInfo.lockHash), x) ::
      markFirsts (some x.cellInfo.lockHash) xs

/-- Sort key of the second sort in `prepare_inputs` line 247:
`(!is_first, lock_hash)` under the lexicographic pair order with
`false < true`. -/
def pairLe (a b : Bool × InputInfo) : Bool :=
  if a.1 = b.1 then lexLe a.2.cellInfo.lockHash b.2.cellInfo.lockHash else a.1

def pairLeP (a b : Bool × InputInfo) : Prop := pairLe a b = true

instance : DecidableRel pairLeP := fun a b => instDecidableEqBool (pairLe a b) true

/-- `prepare_inputs`: sort the batch by lock hash, tag first-of-run inputs,
re-sort by `(!is_first, lock_hash)`, and return the tagged owners' lock hashes
together with the reordered inputs. -/
def prepare_inputs (totalInputs : List InputInfo) :
    List (List Nat) × List InputInfo :=
  let sorted := List.insertionSort hashLeP totalInputs
  let marked := markFirsts none sorted
  let sorted2 := List.insertionSort pairLeP marked
  ((sorted2.filter (·.1)).map (·.2.cellInfo.lockHash), sorted2.map (·.2))

/-- Consecutive deduplication (`Vec::dedup`). -/
def dedupConsec {α : Type} [DecidableEq α] : List α → List α
  | [] => []
  | [a] => [a]
  | a :: b :: rest =>
    if a = b then dedupConsec (b :: rest) else a :: dedupConsec (b :: rest)

/-! ### Transaction builder (`src/config/run.rs` lines 260-360) -/

/-- `calculate_outputs_count` (lines 260-271).  The `u64` subtraction
`total_shannons - fee_shannons` is unchecked in the source, so in a release
build it wraps; the wrap is explicit here.  The division panics in Rust when
`output_shannons = 0`; `construct_raw_transaction` models that panic before
calling this. -/
def calculate_outputs_count (outputsLimit total outputShannons fee : Nat) : Nat :=
  let x := wrapSub total fee / outputShannons
  if x = 0 then 1 else if x < outputsLimit then x else outputsLimit

/-- One transaction output: capacity in shannons and serialized lock script
bytes (`packed::CellOutput`). -/
structure CellOutput where
  capacity : Nat
  lock : List Nat
deriving DecidableEq

/-- Sort key of line 350: the serialized lock script bytes. -/
def outLockLeP (a b : CellOutput) : Prop := lexLe a.lock b.lock = true

instance : DecidableRel outLockLeP :=
  fun a b => instDecidableEqBool (lexLe a.lock b.lock) true

/-- The unsigned transaction assembled by the builder
(`packed::RawTransaction`). -/
structure RawTx where
  inputs : List OutPoint
  cellDeps : List (List Nat)
  outputs : List CellOutput
  outputsData : List (List Nat)
deriving DecidableEq

/-- Outcome of a build round: a transaction, a `Result` error, or a Rust
panic (division by zero, index out of bounds, `HashMap` index on a missing
key). -/
inductive BuildOutcome (α : Type)
  | ok (a : α)
  | err (msg : String)
  | panicked
deriving DecidableEq

/-- The `try_fold` of lines 296-309: the scheme id of each input's owning
account, in input order; `none` when some owner has no account entry. -/
def collectIds (accounts : List (List Nat × LockInfo)) :
    List InputInfo → Option (List LockScriptId)
  | [] => some []
  | i :: is =>
    (accGet accounts i.cellInfo.lockHash).bind fun a =>
      (collectIds accounts is).map fun ids => a.id :: ids

/-- The `try_fold` of lines 310-316: concatenate the dep lists of the given
scheme ids; `none` when a scheme has no registered dep list. -/
def collectDeps (dict : List (LockScriptId × List (List Nat))) :
    List LockScriptId → Option (List (List Nat))
  | [] => some []
  | i :: is =>
    (depsGet dict i).bind fun ds =>
      (collectDeps dict is).map fun rest => ds ++ rest

/-- Resolve the lock script drawn for each output index (lines 340-349):
`draws i` is indexed into the account map, which panics (`none`) on a missing
key. -/
def resolveScripts (accounts : List (List Nat × LockInfo)) (draws : Nat → List Nat) :
    List Nat → Option (List (List Nat))
  | [] => some []
  | i :: is =>
    (accGet accounts (draws i)).bind fun a =>
      (resolveScripts accounts draws is).map fun r => a.script :: r

/-- `construct_raw_transaction` (lines 273-360).  `draws i` is the lock hash
returned by the i-th call of the weighted random `lock_generator` (one draw
per output); randomness is thus an explicit oracle parameter. -/
def construct_raw_transaction (inputsInfo : List InputInfo)
    (accounts : List (List Nat × LockInfo)) (draws : Nat → List Nat)
    (lockDepsDict : List (LockScriptId × List (List Nat)))
    (outputsLimit outputBytes feeShannons : Nat) : BuildOutcome RawTx :=
  let inputs := inputsInfo.map (·.outPoint)
  match safeAddFold 0 (inputsInfo.map (·.cellInfo.capacity)) with
  | .error e => .err e
  | .ok totalCap =>
    match collectIds accounts inputsInfo with
    | none => .err "a lock script doesn't set"
    | some ids =>
      match collectDeps lockDepsDict (dedupConsec (List.insertionSort idLeP ids)) with
      | none => .err "a lock script doesn't have cell deps"
      | some deps =>
        let cellDeps := dedupConsec (List.insertionSort bytesLeP deps)
        let outputShannons := outputBytes * BYTE_SHANNONS
        if outputShannons = 0 then .panicked
        else
          let count :=
            calculate_outputs_count outputsLimit totalCap outputShannons feeShannons
          if count = 0 then .panicked
          else
            match resolveScripts accounts draws (List.range count) with
            | none => .panicked
            | some locks =>
              match locks with
              | [] => .panicked
              | l0 :: ls =>
                let firstCap :=
                  wrapSub (wrapSub totalCap feeShannons)
                    (wrapMul outputShannons (count - 1))
                let tailOuts := ls.map fun l => CellOutput.mk outputShannons l
                let outs :=
                  CellOutput.mk firstCap l0 :: List.insertionSort outLockLeP tailOuts
                .ok ⟨inputs, cellDeps, outs, List.replicate count []⟩

/-! ### Signer (`LockScriptId::sign`, `src/types/init.rs` lines 220-273, and
`sign_transaction`, `src/config/run.rs` lines 362-392) -/

/-- The cryptographic primitives the signer is built from (the `ckb_hash`
blake2b-256 with the ckb personalization, `tiny_keccak` Keccak-256, and the
secp256k1 recoverable signing of `ckb_crypto`).  They live in external crates;
the embedding abstracts them as an oracle record, since every claim is about
how their inputs are assembled, not about the primitives themselves. -/
structure CryptoPrims where
  ckbBlake2b : List Nat → List Nat
  keccak256 : List Nat → List Nat
  signRecoverable : List Nat → List Nat → Except String (List Nat)

/-- Molecule serialization of a `WitnessArgs` table whose `input_type` and
`output_type` fields are absent (the only shape the source builds): a 16-byte
header (full size and three field offsets, little-endian `u32` each) followed
by the `lock` field body, itself a `Bytes` fixvec (4-byte length prefix). -/
def witnessArgsSerialize (lock : Option (List Nat)) : List Nat :=
  match lock with
  | none => u32le 16 ++ u32le 16 ++ u32le 16 ++ u32le 16
  | some b =>
    u32le (16 + (4 + b.length)) ++ u32le 16 ++ u32le (16 + (4 + b.length)) ++
      u32le (16 + (4 + b.length)) ++ u32le b.length ++ b

/-- The placeholder witness both signing paths rebuild: a `WitnessArgs` whose
`lock` field is a 65-byte all-zero signature (`src/types/init.rs` lines
225-228 and 245-248, `src/config/run.rs` lines 367-370). -/
def placeholderWitness : List Nat :=
  witnessArgsSerialize (some (List.replicate 65 0))

/-- ASCII bytes of a string (all characters involved are 7-bit). -/
def asciiBytes (s : String) : List Nat := s.data.map Char.toNat

/-- The Ethereum personal-message framing used by the `PwLockK1Acpl` path:
`"\x19Ethereum Signed Message:\n"` followed by the decimal message length. -/
def ethPersonalTag (n : Nat) : List Nat :=
  asciiBytes "\x19Ethereum Signed Message:\n" ++ asciiBytes (toString n)

/-- `LockScriptId::sign` (`src/types/init.rs` lines 220-273): build the
scheme's digest over `data ++ (placeholder length as 8-byte LE) ++
placeholder`, with blake2b for `Secp256k1Blake160` and Keccak-256 plus the
Ethereum personal-message wrap (the length is `result.len() = 32`) for
`PwLockK1Acpl`, then sign recoverably. -/
def LockScriptId.sign (prims : CryptoPrims) :
    LockScriptId → List Nat → List Nat → Except String (List Nat)
  | .secp256k1Blake160, sk, data =>
    prims.signRecoverable sk
      (prims.ckbBlake2b (data ++ u64le placeholderWitness.length ++ placeholderWitness))
  | .pwLockK1Acpl, sk, data =>
    let messageRaw :=
      prims.keccak256 (data ++ u64le placeholderWitness.length ++ placeholderWitness)
    prims.signRecoverable sk (prims.keccak256 (ethPersonalTag 32 ++ messageRaw))

/-- A full transaction: the serialized raw transaction plus its witness
list (`packed::Transaction`). -/
structure Transaction where
  rawBytes : List Nat
  witnesses : List (List Nat)
deriving DecidableEq

/-- Modelled from the `ckb-types` dependency:
`packed::Transaction::calc_tx_hash` is `self.raw().calc_hash()`, the ckb
blake2b-256 hash of the serialized **raw** transaction only; the witness
field does not enter this digest (it is covered by the separate
`calc_witness_hash`). -/
def calcTxHash (prims : CryptoPrims) (tx : Transaction) : List Nat :=
  prims.ckbBlake2b tx.rawBytes

/-- `sign_transaction` (`src/config/run.rs` lines 362-392): attach one
placeholder witness per distinct owner, compute `calc_tx_hash`, then replace
every placeholder with a `WitnessArgs` carrying the owner's recoverable
signature over that hash.  A lock hash without an account entry panics in the
source (`&accounts[&hash]`); the model surfaces it as an error. -/
def sign_transaction (prims : CryptoPrims) (rawBytes : List Nat)
    (lockHashes : List (List Nat)) (accounts : List (List Nat × LockInfo)) :
    Except String Transaction :=
  let txBlank : Transaction :=
    ⟨rawBytes, List.replicate lockHashes.length placeholderWitness⟩
  let txHash := calcTxHash prims txBlank
  let witnessOf : List Nat → Except String (List Nat) := fun h =>
    match accGet accounts h with
    | none => .error "account lookup panicked"
    | some info =>
      (LockScriptId.sign prims info.id info.secretKey txHash).map
        fun sig => witnessArgsSerialize (some sig)
  (lockHashes.mapM witnessOf).map fun ws => ⟨rawBytes, ws⟩

/-- Consecutive-duplicate collapse of a hash sequence; the sequence groups
same-hash inputs contiguously exactly when this collapse has no duplicates. -/
def consecHashes : List (List Nat) → List (List Nat)
  | [] => []
  | [a] => [a]
  | a :: b :: rest =>
    if a = b then consecHashes (b :: rest) else a :: consecHashes (b :: rest)

/-! ### Concrete example data used to evaluate theorems on closed inputs -/

/-- A 32-byte lock hash ending in 1. -/
def exH1 : List Nat := List.replicate 31 0 ++ [1]

/-- A 32-byte lock hash ending in 2. -/
def exH2 : List Nat := List.replicate 31 0 ++ [2]

/-- A batch of three inputs: one owned by `exH2`, then two owned by `exH1`
(so the first-seen owner is `exH2` and `exH1` owns two inputs). -/
def exBatchC2 : List InputInfo :=
  [⟨⟨List.replicate 31 0 ++ [10], 0⟩, ⟨100, exH2⟩⟩,
   ⟨⟨List.replicate 31 0 ++ [11], 0⟩, ⟨100, exH1⟩⟩,
   ⟨⟨List.replicate 31 0 ++ [12], 0⟩, ⟨100, exH1⟩⟩]

/-- A one-account map owning lock hash `exH1`. -/
def exAccounts : List (List Nat × LockInfo) :=
  [(exH1, ⟨.secp256k1Blake160, List.replicate 10 3, List.replicate 32 9⟩)]

/-- A dep dictionary with one dep for the secp scheme. -/
def exDeps : List (LockScriptId × List (List Nat)) :=
  [(.secp256k1Blake160, [[1, 2, 3]])]

/-- A batch with one zero-capacity input owned by `exH1`: its total capacity 0
is strictly below any positive fee. -/
def exBatchC8 : List InputInfo :=
  [⟨⟨List.replicate 31 0 ++ [5], 0⟩, ⟨0, exH1⟩⟩]

/-- A concrete crypto oracle (identity "hashes", concatenating "signature")
used only to evaluate hash-structure facts on closed inputs; the facts proved
with it hold for every oracle. -/
def exPrims : CryptoPrims :=
  ⟨fun l => l, fun l => l, fun sk m => .ok (sk ++ m)⟩

/-! ## Theorems -/

theorem kvGet_kvDel : ∀ (m : List (OutPoint × CellInfo)) (k k' : OutPoint),
    kvGet (kvDel m k) k' = if k = k' then none else kvGet m k'
  | [], k, k' => by simp [kvDel, kvGet]
  | e :: m, k, k' => by
    have ih := kvGet_kvDel m k k'
    by_cases h1 : e.1 = k <;> by_cases h2 : k = k' <;> simp_all [kvDel, kvGet]

theorem kvGet_kvPut (m : List (OutPoint × CellInfo)) (k : OutPoint) (v : CellInfo)
    (k' : OutPoint) :
    kvGet (kvPut m k v) k' = if k = k' then some v else kvGet m k' := by
  by_cases h : k = k' <;> simp [kvPut, kvGet, kvGet_kvDel, h]

/-- C5: for every reachable ledger state (from the empty store, by `add_cell`
on fresh out-points, `spend_cell`, `rm_cell` and cursor writes — the
operations the synchronizer and orchestrator perform), no out-point is in
both the spendable (`cells`) set and the pending (`cache`) set. -/
theorem claim_C5_cells_cache_disjoint {st : LedgerState} (h : Reachable st) :
    ∀ op : OutPoint,
      ¬((kvGet st.cells op).isSome = true ∧ (kvGet st.cache op).isSome = true) := by
  induction h with
  | init => intro op; simp [LedgerState.empty, kvGet]
  | @add st op0 info _ hc1 hc2 ih =>
    intro op
    by_cases h0 : op0 = op
    · subst h0; simp [add_cell, kvGet_kvPut, hc2]
    · simpa [add_cell, kvGet_kvPut, h0] using ih op
  | @spend st st' op0 _ hok ih =>
    intro op
    rcases hi : kvGet st.cells op0 with _ | info <;> simp [spend_cell, hi] at hok
    subst hok
    by_cases h0 : op0 = op
    · subst h0; simp [kvGet_kvDel, kvGet_kvPut]
    · simpa [kvGet_kvDel, kvGet_kvPut, h0] using ih op
  | @remove st op0 _ ih =>
    intro op
    by_cases h0 : op0 = op
    · subst h0; simp [rm_cell, kvGet_kvDel]
    · simpa [rm_cell, kvGet_kvDel, h0] using ih op
  | putNum _ ih => intro op; simpa [put_prev_number] using ih op

/-- Witness for C5: a concrete reachable state (one cell added fresh, then
spent) satisfies the disjointness invariant. -/
theorem claim_C5_cells_cache_disjoint_witness :
    Reachable ⟨[], [(⟨List.replicate 32 0, 0⟩, ⟨500, List.replicate 32 1⟩)], none⟩ ∧
    ∀ op : OutPoint,
      ¬((kvGet ([] : List (OutPoint × CellInfo)) op).isSome = true ∧
        (kvGet [(⟨List.replicate 32 0, 0⟩, ⟨500, List.replicate 32 1⟩)] op).isSome = true) := by
  have h1 : Reachable
      (add_cell LedgerState.empty ⟨List.replicate 32 0, 0⟩ ⟨500, List.replicate 32 1⟩) :=
    @Reachable.add LedgerState.empty ⟨List.replicate 32 0, 0⟩ ⟨500, List.replicate 32 1⟩
      Reachable.init rfl rfl
  have hr : Reachable ⟨[], [(⟨List.replicate 32 0, 0⟩, ⟨500, List.replicate 32 1⟩)], none⟩ :=
    @Reachable.spend _ _ ⟨List.replicate 32 0, 0⟩ h1 rfl
  exact ⟨hr, claim_C5_cells_cache_disjoint hr⟩

/-- C7: `spend_cell` moves the record (capacity and lock hash unchanged) from
the spendable set to the pending set when the out-point is spendable, and
fails with the storage error, touching nothing, when it is not. -/
theorem claim_C7_spend_cell_semantics (st : LedgerState) (op : OutPoint) :
    (∀ info, kvGet st.cells op = some info →
      spend_cell st op =
        .ok ⟨kvDel st.cells op, kvPut st.cache op info, st.prevNumberBytes⟩) ∧
    (kvGet st.cells op = none → spend_cell st op = .error spendErrMsg) := by
  constructor
  · intro info hi; simp [spend_cell, hi]
  · intro hi; simp [spend_cell, hi]

/-- Witness for C7: a concrete spendable cell is moved intact, and spending a
missing out-point returns the storage error. -/
theorem claim_C7_spend_cell_semantics_witness :
    spend_cell ⟨[(⟨List.replicate 32 0, 0⟩, ⟨500, List.replicate 32 1⟩)], [], none⟩
        ⟨List.replicate 32 0, 0⟩ =
      .ok ⟨[], [(⟨List.replicate 32 0, 0⟩, ⟨500, List.replicate 32 1⟩)], none⟩ ∧
    spend_cell LedgerState.empty ⟨List.replicate 32 0, 0⟩ = .error spendErrMsg := by
  constructor
  · exact (claim_C7_spend_cell_semantics
      ⟨[(⟨List.replicate 32 0, 0⟩, ⟨500, List.replicate 32 1⟩)], [], none⟩
      ⟨List.replicate 32 0, 0⟩).1 ⟨500, List.replicate 32 1⟩ rfl
  · exact (claim_C7_spend_cell_semantics LedgerState.empty ⟨List.replicate 32 0, 0⟩).2 rfl

/-- C9 counterexample: a stored record with a valid 36-byte key but a 39-byte
(shorter than the 40-byte layout) value makes `load_cells` panic; it does not
surface a storage error. -/
theorem claim_C9_counterexample :
    load_cells [(List.replicate 36 0, List.replicate 39 0)] = .panicked ∧
    (match load_cells [(List.replicate 36 0, List.replicate 39 0)] with
      | .storageErr _ => true
      | _ => false) = false := by
  decide

/-- C9 amended: only a corrupted out-point key surfaces a storage-error
result; a value shorter than the 40-byte layout makes record decoding panic
(out-of-bounds slice index) instead. -/
theorem claim_C9_corrupted_record_outcomes (records : List (List Nat × List Nat)) :
    ((∀ kv ∈ records, (kv.1).length = 36) →
      (∃ kv ∈ records, (kv.2).length < 40) → load_cells records = .panicked) ∧
    (∀ k v rest, records = (k, v) :: rest → k.length ≠ 36 →
      load_cells records = .storageErr "OutPoint verification failed") := by
  constructor
  · induction records with
    | nil => intro _ hbad; simp at hbad
    | cons kv rest ih =>
      intro hkeys hbad
      obtain ⟨k, v⟩ := kv
      have hk : k.length = 36 := hkeys (k, v) (by simp)
      by_cases hv : 40 ≤ v.length
      · have hbad' : ∃ kv ∈ rest, (kv.2).length < 40 := by
          rcases hbad with ⟨e, he, hlen⟩
          rcases List.mem_cons.mp he with h | h
          · subst h; simp at hlen; omega
          · exact ⟨e, h, hlen⟩
        have hrest := ih (fun kv h => hkeys kv (List.mem_cons_of_mem _ h)) hbad'
        simp [load_cells, OutPoint.from_slice, hk, CellInfo.from_slice, hv, hrest]
      · simp [load_cells, OutPoint.from_slice, hk, CellInfo.from_slice, hv]
  · intro k v rest hrec hk
    subst hrec
    simp [load_cells, OutPoint.from_slice, hk]

/-- Witness for C9: a record with a short value panics; a record with a
35-byte key fails key verification with the storage error. -/
theorem claim_C9_corrupted_record_outcomes_witness :
    load_cells [(List.replicate 36 0, [])] = .panicked ∧
    load_cells [(List.replicate 35 0, [])] = .storageErr "OutPoint verification failed" := by
  constructor
  · exact (claim_C9_corrupted_record_outcomes [(List.replicate 36 0, [])]).1
      (by decide) ⟨(List.replicate 36 0, []), by simp, by decide⟩
  · exact (claim_C9_corrupted_record_outcomes [(List.replicate 35 0, [])]).2
      (List.replicate 35 0) [] [] rfl (by decide)

/-- C4 counterexample: two concrete transactions that differ only in their
witnesses have the same content hash (`calc_tx_hash` input), so the claimed
pair whose hashes differ does not exist. -/
theorem claim_C4_counterexample :
    (Transaction.mk [1] [[2]]).witnesses ≠ (Transaction.mk [1] [[3]]).witnesses ∧
    (Transaction.mk [1] [[2]]).rawBytes = (Transaction.mk [1] [[3]]).rawBytes ∧
    calcTxHash exPrims ⟨[1], [[2]]⟩ = calcTxHash exPrims ⟨[1], [[3]]⟩ := by
  refine ⟨by decide, rfl, rfl⟩

/-- C4 amended: the transaction content hash the signer's message commits to
is computed over the serialized raw transaction only; any two transactions
that differ only in their (placeholder) witnesses have the same content
hash, for every choice of hash primitive. -/
theorem claim_C4_txhash_ignores_witnesses (prims : CryptoPrims)
    (t1 t2 : Transaction) (hraw : t1.rawBytes = t2.rawBytes) :
    calcTxHash prims t1 = calcTxHash prims t2 := by
  simp [calcTxHash, hraw]

/-- Witness for C4: the amended theorem applied at two concrete transactions
differing only in witnesses. -/
theorem claim_C4_txhash_ignores_witnesses_witness :
    calcTxHash exPrims ⟨[7], [placeholderWitness]⟩ = calcTxHash exPrims ⟨[7], [[9]]⟩ :=
  claim_C4_txhash_ignores_witnesses exPrims ⟨[7], [placeholderWitness]⟩ ⟨[7], [[9]]⟩ rfl

/-- C3: for every crypto oracle, secret key and content hash, the
`Secp256k1Blake160` path signs
blake2b(data ++ placeholder-length-as-8-byte-LE ++ placeholder) and the
`PwLockK1Acpl` path wraps the analogous Keccak digest in the Ethereum
personal-message framing before signing; the placeholder witness is the
85-byte serialized `WitnessArgs` carrying a 65-byte all-zero signature. -/
theorem claim_C3_sign_digests (prims : CryptoPrims) (sk data : List Nat) :
    LockScriptId.sign prims .secp256k1Blake160 sk data =
      prims.signRecoverable sk
        (prims.ckbBlake2b (data ++ u64le placeholderWitness.length ++ placeholderWitness)) ∧
    LockScriptId.sign prims .pwLockK1Acpl sk data =
      prims.signRecoverable sk
        (prims.keccak256 (asciiBytes "\x19Ethereum Signed Message:\n32" ++
          prims.keccak256
            (data ++ u64le placeholderWitness.length ++ placeholderWitness))) ∧
    placeholderWitness =
      [85, 0, 0, 0, 16, 0, 0, 0, 85, 0, 0, 0, 85, 0, 0, 0, 65, 0, 0, 0] ++
        List.replicate 65 0 ∧
    u64le placeholderWitness.length = [85, 0, 0, 0, 0, 0, 0, 0] :=
  ⟨rfl, rfl, rfl, rfl⟩

/-- C10: when the spendable iterator is exhausted, a non-empty batch whose
total meets the `(output_min_capacity + 1) * 10^8` threshold is declared
"enough" regardless of its size versus `min(target, inputs_limit)`, and
"lacking" is returned exactly when the iterator is exhausted and the batch is
empty or below the threshold (never while cells remain). -/
theorem claim_C10_selector_exhaustion (inputs : List InputInfo)
    (inputsLimit outputMinBytes expectedInputSize total : Nat)
    (htot : safeAddFold 0 (inputs.map (·.cellInfo.capacity)) = .ok total) :
    (inputs ≠ [] → (outputMinBytes + 1) * BYTE_SHANNONS ≤ total →
      fetch_more_inputs none inputs inputsLimit outputMinBytes expectedInputSize =
        .ok (.enough, inputs)) ∧
    (fetch_more_inputs none inputs inputsLimit outputMinBytes expectedInputSize =
        .ok (.lack, inputs) ↔
      (inputs = [] ∨ total < (outputMinBytes + 1) * BYTE_SHANNONS)) ∧
    (∀ cell r rest,
      fetch_more_inputs (some cell) inputs inputsLimit outputMinBytes
          expectedInputSize = .ok (r, rest) → r ≠ .lack) := by
  refine ⟨?_, ?_, ?_⟩
  · intro hne hthr
    simp only [fetch_more_inputs, if_neg hne, htot, bind, Except.bind]
    rw [if_neg (by omega : ¬ total < (outputMinBytes + 1) * BYTE_SHANNONS)]
  · by_cases hne : inputs = []
    · subst hne
      simp [fetch_more_inputs]
    · simp only [fetch_more_inputs, if_neg hne, htot, bind, Except.bind]
      split
      · simp_all
      · simp_all
  · intro cell r rest hr
    rcases h2 : safeAddFold 0 ((inputs ++ [cell]).map (·.cellInfo.capacity)) with e | t2
    · simp only [fetch_more_inputs, h2, bind, Except.bind] at hr
      cases hr
    · simp only [fetch_more_inputs, h2, bind, Except.bind] at hr
      split at hr
      · rcases hr with ⟨rfl, -⟩; decide
      · split at hr <;> rcases hr with ⟨rfl, -⟩ <;> decide

/-- Witness for C10: a single cell of 6 shannon-hundred-millions meets the
threshold for `output_min_capacity = 5`, so the exhausted one-element batch
(far below `min(50, 100)`) is "enough". -/
theorem claim_C10_selector_exhaustion_witness :
    fetch_more_inputs none [⟨⟨List.replicate 32 0, 0⟩, ⟨600000000, exH1⟩⟩] 100 5 50 =
      .ok (.enough, [⟨⟨List.replicate 32 0, 0⟩, ⟨600000000, exH1⟩⟩]) :=
  (claim_C10_selector_exhaustion [⟨⟨List.replicate 32 0, 0⟩, ⟨600000000, exH1⟩⟩]
    100 5 50 600000000 rfl).1 (by decide) (by norm_num [BYTE_SHANNONS])

theorem beToNat_u64be (n : Nat) (h : n < U64MOD) : beToNat (u64be n) = n := by
  simp only [beToNat, u64be, List.foldl, U64MOD] at *
  omega

theorem wrapSub_eq (a b : Nat) (hb : b ≤ a) (ha : a < U64MOD) : wrapSub a b = a - b := by
  simp only [wrapSub, U64MOD] at *
  omega

theorem getLast?_range_one : ∀ (n s : Nat), (List.range' s (n + 1)).getLast? = some (s + n)
  | 0, s => by simp [List.range']
  | n + 1, s => by
    have ih := getLast?_range_one n (s + 1)
    simp only [List.range'] at ih ⊢
    rw [List.getLast?_cons_cons]
    rw [ih]
    congr 1
    omega

theorem sync_foldlM_ok (env : ChainEnv) (accounts : List (List Nat × LockInfo)) :
    ∀ (hs : List Nat) (st : LedgerState),
      (∀ h ∈ hs, (env.blocks h).isSome = true) →
      ∃ st', List.foldlM (processHeight env accounts) st hs = .ok st' ∧
        ((hs = [] ∧ st' = st) ∨
          ∃ n, hs.getLast? = some n ∧ st'.prevNumberBytes = some (u64be n))
  | [], st, _ => ⟨st, rfl, Or.inl ⟨rfl, rfl⟩⟩
  | h :: hs, st, hb => by
    obtain ⟨txs, htxs⟩ := Option.isSome_iff_exists.mp (hb h (by simp))
    obtain ⟨st', hfold, hcase⟩ :=
      sync_foldlM_ok env accounts hs
        (put_prev_number (txs.foldl (applyTx accounts) st) h)
        (fun h' hh' => hb h' (List.mem_cons_of_mem _ hh'))
    refine ⟨st', ?_, ?_⟩
    · simp only [List.foldlM, processHeight, htxs, bind, Except.bind]
      exact hfold
    · rcases hcase with ⟨hnil, hst⟩ | ⟨n, hlast, hprev⟩
      · subst hnil; subst hst
        exact Or.inr ⟨h, by simp, by simp [put_prev_number]⟩
      · refine Or.inr ⟨n, ?_, hprev⟩
        cases hs with
        | nil => simp at hlast
        | cons h2 hs' => rw [List.getLast?_cons_cons]; exact hlast

/-- C6 counterexample: at cursor 10 (stored prev height 9), delay
`2^64 - 5` and tip 100, the `u64` addition `next_num + delay_blocks` wraps to
5 in a release build, so the round is NOT skipped although
`cursor + delay >= tip` — it scans the wrapped window `10..=105` past the
tip — refuting the claimed iff at a concrete input. -/
theorem claim_C6_counterexample :
    (100 : Nat) ≤ 10 + 18446744073709551611 ∧
    synchronize ⟨100, fun _ => some []⟩ [] 0 18446744073709551611
        ⟨[], [], some (u64be 9)⟩ =
      .ok (false, ⟨[], [], some (u64be 105)⟩, List.range' 10 96) := by
  constructor
  · norm_num
  · rfl

/-- C6 amended: provided the `u64` skip-test addition does not wrap
(`cursor + delay < 2^64`, with `tip` a `u64` value), a synchronization round
scans nothing and reports skipped exactly when `cursor + delay >= tip`;
otherwise it processes precisely the heights from the cursor to
`tip - delay` inclusive, persisting the cursor at each, and reading the
cursor afterwards yields `(tip - delay + 1) mod 2^64` — that height + 1,
except that the `u64` increment wraps to 0 in the corner case
`tip - delay = 2^64 - 1`. -/
theorem claim_C6_sync_window (env : ChainEnv) (accounts : List (List Nat × LockInfo))
    (startBlock delayBlocks : Nat) (st : LedgerState)
    (hblocks : ∀ h ∈ syncHeights ((get_next_number st).getD startBlock) env.tip delayBlocks,
      (env.blocks h).isSome = true)
    (htip : env.tip < U64MOD)
    (hadd : (get_next_number st).getD startBlock + delayBlocks < U64MOD) :
    (env.tip ≤ (get_next_number st).getD startBlock + delayBlocks →
      synchronize env accounts startBlock delayBlocks st = .ok (true, st, [])) ∧
    ((get_next_number st).getD startBlock + delayBlocks < env.tip →
      ∃ st', synchronize env accounts startBlock delayBlocks st =
          .ok (false, st',
            syncHeights ((get_next_number st).getD startBlock) env.tip delayBlocks) ∧
        get_next_number st' = some ((env.tip - delayBlocks + 1) % U64MOD) ∧
        ∀ h, h ∈ syncHeights ((get_next_number st).getD startBlock) env.tip delayBlocks ↔
          ((get_next_number st).getD startBlock ≤ h ∧ h ≤ env.tip - delayBlocks)) := by
  have hwa : wrapAdd ((get_next_number st).getD startBlock) delayBlocks =
      (get_next_number st).getD startBlock + delayBlocks := Nat.mod_eq_of_lt hadd
  constructor
  · intro hskip
    simp [synchronize, hwa, if_pos hskip]
  · intro hlt
    have hwsub : wrapSub env.tip delayBlocks = env.tip - delayBlocks :=
      wrapSub_eq _ _ (by omega) htip
    obtain ⟨st', hfold, hcase⟩ :=
      sync_foldlM_ok env accounts
        (syncHeights ((get_next_number st).getD startBlock) env.tip delayBlocks) st hblocks
    have hlen : wrapSub env.tip delayBlocks + 1 - (get_next_number st).getD startBlock =
        (env.tip - delayBlocks - (get_next_number st).getD startBlock) + 1 := by
      rw [hwsub]
      omega
    have hlast : (syncHeights ((get_next_number st).getD startBlock) env.tip
        delayBlocks).getLast? = some (env.tip - delayBlocks) := by
      rw [syncHeights, hlen, getLast?_range_one]
      congr 1
      omega
    refine ⟨st', ?_, ?_, ?_⟩
    · simp only [synchronize, hwa, bind, Except.bind]
      rw [if_neg (by omega : ¬ env.tip ≤
        (get_next_number st).getD startBlock + delayBlocks), hfold]
    · rcases hcase with ⟨hnil, _⟩ | ⟨n, hlast', hprev⟩
      · rw [hnil] at hlast; simp at hlast
      · rw [hlast'] at hlast
        injection hlast with hn
        subst hn
        have htake : (u64be (env.tip - delayBlocks)).take 8 = u64be (env.tip - delayBlocks) := by
          simp [u64be]
        simp only [get_next_number, hprev, Option.map_some']
        rw [htake, beToNat_u64be (env.tip - delayBlocks) (by omega)]
    · intro h
      rw [syncHeights, hlen, List.mem_range']
      constructor
      · rintro ⟨i, hi, rfl⟩; omega
      · intro ⟨h1, h2⟩; exact ⟨h - (get_next_number st).getD startBlock, by omega, by omega⟩

/-- Witness for C6's amended statement: a concrete chain (tip 5, delay 1,
empty blocks) from an empty store with checkpoint start 0 processes heights
0..4 and leaves the cursor reading 5. -/
theorem claim_C6_sync_window_witness :
    (0 : Nat) + 1 < 5 ∧
    ∃ st', synchronize ⟨5, fun _ => some []⟩ [] 0 1 LedgerState.empty =
        .ok (false, st', syncHeights 0 5 1) ∧
      get_next_number st' = some 5 ∧
      ∀ h, h ∈ syncHeights 0 5 1 ↔ (0 ≤ h ∧ h ≤ 4) :=
  ⟨by decide,
    (claim_C6_sync_window ⟨5, fun _ => some []⟩ [] 0 1 LedgerState.empty
      (fun h _ => rfl) (by decide) (by decide)).2 (by decide)⟩

theorem safeAddFold_lt : ∀ (l : List Nat) (acc total : Nat), acc < U64MOD →
    safeAddFold acc l = .ok total → total < U64MOD
  | [], acc, total, hacc, h => by
    simp only [safeAddFold] at h
    injection h with h
    omega
  | c :: cs, acc, total, hacc, h => by
    simp only [safeAddFold] at h
    split at h
    · exact safeAddFold_lt cs (acc + c) total (by omega) h
    · cases h

theorem safeAddFold_ok_eq : ∀ (l : List Nat) (acc total : Nat),
    safeAddFold acc l = .ok total → total = acc + l.sum
  | [], acc, total, h => by
    simp only [safeAddFold] at h
    injection h with h
    simp [h.symm]
  | c :: cs, acc, total, h => by
    simp only [safeAddFold] at h
    split at h
    · have := safeAddFold_ok_eq cs (acc + c) total h
      simp [this]
      omega
    · cases h

theorem resolveScripts_length (accounts : List (List Nat × LockInfo))
    (draws : Nat → List Nat) :
    ∀ (l : List Nat) (r : List (List Nat)),
      resolveScripts accounts draws l = some r → r.length = l.length
  | [], r, h => by
    simp only [resolveScripts] at h
    obtain rfl : r = [] := (Option.some.inj h).symm
    rfl
  | i :: is, r, h => by
    simp only [resolveScripts, Option.bind_eq_some, Option.map_eq_some'] at h
    obtain ⟨a, _, r', hr', rfl⟩ := h
    simp [resolveScripts_length accounts draws is r' hr']

theorem calculate_outputs_count_pos (outputsLimit total out fee : Nat)
    (hlim : 0 < outputsLimit) :
    0 < calculate_outputs_count outputsLimit total out fee := by
  by_cases h1 : wrapSub total fee / out = 0
  · simp [calculate_outputs_count, h1]
  · by_cases h2 : wrapSub total fee / out < outputsLimit
    · simp only [calculate_outputs_count, if_neg h1, if_pos h2]
      exact Nat.pos_of_ne_zero h1
    · simp only [calculate_outputs_count, if_neg h1, if_neg h2]
      exact hlim

theorem calculate_outputs_count_sub_one_le (outputsLimit total out fee : Nat) :
    calculate_outputs_count outputsLimit total out fee - 1 ≤ wrapSub total fee / out := by
  by_cases h1 : wrapSub total fee / out = 0
  · simp [calculate_outputs_count, h1]
  · by_cases h2 : wrapSub total fee / out < outputsLimit
    · simp only [calculate_outputs_count, if_neg h1, if_pos h2]
      exact Nat.sub_le _ _
    · simp only [calculate_outputs_count, if_neg h1, if_neg h2]
      exact le_trans (Nat.sub_le _ _) (Nat.not_lt.mp h2)

theorem mapConstSum {α : Type} (c : Nat) : ∀ (l : List α), (l.map fun _ => c).sum = l.length * c
  | [] => by simp
  | a :: l => by simp [mapConstSum c l, Nat.succ_mul]; omega

/-- C1: for a valid batch (total input capacity at least the fee, positive
per-output capacity and output limit, with resolvable owners, deps and
destination draws), the built transaction conserves value exactly:
outputs sum plus fee equals the input capacity sum, every output after the
first carries exactly the configured per-output capacity, and the first
output absorbs the remainder. -/
theorem claim_C1_value_conservation
    (inputsInfo : List InputInfo) (accounts : List (List Nat × LockInfo))
    (draws : Nat → List Nat) (lockDepsDict : List (LockScriptId × List (List Nat)))
    (outputsLimit outputBytes feeShannons total : Nat)
    (ids : List LockScriptId) (deps locks : List (List Nat))
    (htot : safeAddFold 0 (inputsInfo.map (·.cellInfo.capacity)) = .ok total)
    (hids : collectIds accounts inputsInfo = some ids)
    (hdeps : collectDeps lockDepsDict (dedupConsec (List.insertionSort idLeP ids)) =
      some deps)
    (hlocks : resolveScripts accounts draws
      (List.range (calculate_outputs_count outputsLimit total
        (outputBytes * BYTE_SHANNONS) feeShannons)) = some locks)
    (hfee : feeShannons ≤ total)
    (hout : 0 < outputBytes)
    (hlim : 0 < outputsLimit) :
    ∃ tx, construct_raw_transaction inputsInfo accounts draws lockDepsDict
        outputsLimit outputBytes feeShannons = .ok tx ∧
      total = (inputsInfo.map (·.cellInfo.capacity)).sum ∧
      (tx.outputs.map CellOutput.capacity).sum + feeShannons = total ∧
      tx.outputs.length = calculate_outputs_count outputsLimit total
        (outputBytes * BYTE_SHANNONS) feeShannons ∧
      (∀ o ∈ tx.outputs.tail, o.capacity = outputBytes * BYTE_SHANNONS) ∧
      tx.outputs.head?.map CellOutput.capacity = some (total - feeShannons -
        (calculate_outputs_count outputsLimit total (outputBytes * BYTE_SHANNONS)
          feeShannons - 1) * (outputBytes * BYTE_SHANNONS)) := by
  have hBS : 0 < BYTE_SHANNONS := by norm_num [BYTE_SHANNONS]
  have houtpos : 0 < outputBytes * BYTE_SHANNONS := Nat.mul_pos hout hBS
  have htotlt : total < U64MOD :=
    safeAddFold_lt _ 0 total (by norm_num [U64MOD]) htot
  have hws : wrapSub total feeShannons = total - feeShannons := wrapSub_eq _ _ hfee htotlt
  have hcount := calculate_outputs_count_pos outputsLimit total
    (outputBytes * BYTE_SHANNONS) feeShannons hlim
  have hc1 := calculate_outputs_count_sub_one_le outputsLimit total
    (outputBytes * BYTE_SHANNONS) feeShannons
  rw [hws] at hc1
  have hmul_le : (calculate_outputs_count outputsLimit total
      (outputBytes * BYTE_SHANNONS) feeShannons - 1) * (outputBytes * BYTE_SHANNONS) ≤
      total - feeShannons := by
    calc _ ≤ ((total - feeShannons) / (outputBytes * BYTE_SHANNONS)) *
          (outputBytes * BYTE_SHANNONS) :=
        Nat.mul_le_mul_right _ hc1
      _ ≤ total - feeShannons := Nat.div_mul_le_self _ _
  have hwm : wrapMul (outputBytes * BYTE_SHANNONS)
      (calculate_outputs_count outputsLimit total (outputBytes * BYTE_SHANNONS)
        feeShannons - 1) =
      (outputBytes * BYTE_SHANNONS) * (calculate_outputs_count outputsLimit total
        (outputBytes * BYTE_SHANNONS) feeShannons - 1) := by
    apply Nat.mod_eq_of_lt
    calc _ = (calculate_outputs_count outputsLimit total (outputBytes * BYTE_SHANNONS)
          feeShannons - 1) * (outputBytes * BYTE_SHANNONS) := Nat.mul_comm _ _
      _ ≤ total - feeShannons := hmul_le
      _ < U64MOD := by omega
  have hfc : wrapSub (wrapSub total feeShannons)
      (wrapMul (outputBytes * BYTE_SHANNONS)
        (calculate_outputs_count outputsLimit total (outputBytes * BYTE_SHANNONS)
          feeShannons - 1)) =
      total - feeShannons -
        (calculate_outputs_count outputsLimit total (outputBytes * BYTE_SHANNONS)
          feeShannons - 1) * (outputBytes * BYTE_SHANNONS) := by
    rw [hws, hwm, Nat.mul_comm]
    exact wrapSub_eq _ _ hmul_le (by omega)
  have hlen := resolveScripts_length accounts draws _ _ hlocks
  rw [List.length_range] at hlen
  cases locks with
  | nil => simp at hlen; omega
  | cons l0 ls =>
    have hls : ls.length = calculate_outputs_count outputsLimit total
        (outputBytes * BYTE_SHANNONS) feeShannons - 1 := by
      simp at hlen; omega
    have hsum_tail :
        ((List.insertionSort outLockLeP
          (ls.map fun l => CellOutput.mk (outputBytes * BYTE_SHANNONS) l)).map
            CellOutput.capacity).sum =
          ls.length * (outputBytes * BYTE_SHANNONS) := by
      have hperm := (List.perm_insertionSort outLockLeP
        (ls.map fun l => CellOutput.mk (outputBytes * BYTE_SHANNONS) l)).map
        CellOutput.capacity
      rw [hperm.sum_eq, List.map_map]
      have hcomp : (CellOutput.capacity ∘ fun l : List Nat =>
          CellOutput.mk (outputBytes * BYTE_SHANNONS) l) =
          fun _ => outputBytes * BYTE_SHANNONS := rfl
      rw [hcomp, mapConstSum]
    have hmem_tail : ∀ o ∈ List.insertionSort outLockLeP
        (ls.map fun l => CellOutput.mk (outputBytes * BYTE_SHANNONS) l),
        o.capacity = outputBytes * BYTE_SHANNONS := by
      intro o ho
      have := (List.perm_insertionSort outLockLeP
        (ls.map fun l => CellOutput.mk (outputBytes * BYTE_SHANNONS) l)).mem_iff.mp ho
      obtain ⟨l, _, rfl⟩ := List.mem_map.mp this
      rfl
    have hlen_tail : (List.insertionSort outLockLeP
        (ls.map fun l => CellOutput.mk (outputBytes * BYTE_SHANNONS) l)).length =
        ls.length := by
      rw [(List.perm_insertionSort _ _).length_eq, List.length_map]
    have hcr : construct_raw_transaction inputsInfo accounts draws lockDepsDict
        outputsLimit outputBytes feeShannons =
        .ok ⟨inputsInfo.map (·.outPoint),
          dedupConsec (List.insertionSort bytesLeP deps),
          CellOutput.mk
            (wrapSub (wrapSub total feeShannons)
              (wrapMul (outputBytes * BYTE_SHANNONS)
                (calculate_outputs_count outputsLimit total
                  (outputBytes * BYTE_SHANNONS) feeShannons - 1))) l0 ::
            List.insertionSort outLockLeP
              (ls.map fun l => CellOutput.mk (outputBytes * BYTE_SHANNONS) l),
          List.replicate (calculate_outputs_count outputsLimit total
            (outputBytes * BYTE_SHANNONS) feeShannons) []⟩ := by
      simp only [construct_raw_transaction, htot, hids, hdeps, hlocks]
      rw [if_neg (by omega : ¬ outputBytes * BYTE_SHANNONS = 0),
        if_neg (by omega : ¬ calculate_outputs_count outputsLimit total
          (outputBytes * BYTE_SHANNONS) feeShannons = 0)]
    refine ⟨_, hcr, ?_, ?_, ?_, ?_, ?_⟩
    · have := safeAddFold_ok_eq _ 0 total htot
      omega
    · simp only [List.map_cons, List.sum_cons, hsum_tail, hfc, hls]
      omega
    · simp only [List.length_cons, hlen_tail, hls]
      omega
    · exact hmem_tail
    · simp only [List.head?_cons, Option.map_some', hfc]

/-- Witness for C1 at the spec's own scenario: one input of 600e8 shannons,
fee 100, per-output capacity 5 bytes, outputs limit 10. -/
theorem claim_C1_value_conservation_witness :
    ∃ tx, construct_raw_transaction
        [⟨⟨List.replicate 31 0 ++ [5], 0⟩, ⟨60000000000, exH1⟩⟩]
        exAccounts (fun _ => exH1) exDeps 10 5 100 = .ok tx ∧
      (60000000000 : Nat) =
        (([⟨⟨List.replicate 31 0 ++ [5], 0⟩, ⟨60000000000, exH1⟩⟩] :
          List InputInfo).map (·.cellInfo.capacity)).sum ∧
      (tx.outputs.map CellOutput.capacity).sum + 100 = 60000000000 ∧
      tx.outputs.length = calculate_outputs_count 10 60000000000
        (5 * BYTE_SHANNONS) 100 ∧
      (∀ o ∈ tx.outputs.tail, o.capacity = 5 * BYTE_SHANNONS) ∧
      tx.outputs.head?.map CellOutput.capacity = some (60000000000 - 100 -
        (calculate_outputs_count 10 60000000000 (5 * BYTE_SHANNONS) 100 - 1) *
          (5 * BYTE_SHANNONS)) :=
  claim_C1_value_conservation
    [⟨⟨List.replicate 31 0 ++ [5], 0⟩, ⟨60000000000, exH1⟩⟩]
    exAccounts (fun _ => exH1) exDeps 10 5 100 60000000000
    [.secp256k1Blake160] [[1, 2, 3]] (List.replicate 10 (List.replicate 10 3))
    rfl rfl rfl rfl (by norm_num) (by norm_num) (by norm_num)

/-- C8: the claim fails on the code as built in release mode: at a batch of
total capacity 0 (strictly below the fee 100) the unchecked `u64` subtraction
wraps and the builder returns a 10-output transaction whose first output
carries the wrapped capacity `2^64 - 100 - 9 * 5 * 10^8`, rather than
aborting with an error (a debug build panics instead; neither surfaces an
error `Result`). -/
theorem claim_C8_underflow_builds_wrapped_tx :
    (exBatchC8.map (·.cellInfo.capacity)).sum < 100 ∧
    ∃ tx, construct_raw_transaction exBatchC8 exAccounts (fun _ => exH1) exDeps
        10 5 100 = .ok tx ∧
      tx.outputs.head?.map CellOutput.capacity = some 18446744069209551516 ∧
      tx.outputs.length = 10 := by
  exact ⟨by decide, _, rfl, rfl, rfl⟩

theorem lexLe_refl : ∀ a : List Nat, lexLe a a = true
  | [] => rfl
  | x :: xs => by simp [lexLe, lexLe_refl xs]

theorem lexLe_total : ∀ a b : List Nat, lexLe a b = true ∨ lexLe b a = true
  | [], _ => Or.inl rfl
  | _ :: _, [] => Or.inr rfl
  | a :: as, b :: bs => by
    by_cases h1 : a < b
    · exact Or.inl (by simp [lexLe, h1])
    · by_cases h2 : b < a
      · exact Or.inr (by simp [lexLe, h2])
      · rcases lexLe_total as bs with h | h
        · exact Or.inl (by simp [lexLe, h1, h2, h])
        · exact Or.inr (by simp [lexLe, h1, h2, h])

theorem lexLe_trans : ∀ a b c : List Nat,
    lexLe a b = true → lexLe b c = true → lexLe a c = true
  | [], _, _, _, _ => rfl
  | _ :: _, [], _, h, _ => by cases h
  | _ :: _, _ :: _, [], _, h => by cases h
  | a :: as, b :: bs, c :: cs, h1, h2 => by
    simp only [lexLe] at h1 h2 ⊢
    split at h1
    · split at h2
      · rw [if_pos (by omega)]
      · split at h2
        · cases h2
        · rw [if_pos (by omega)]
    · split at h1
      · cases h1
      · split at h2
        · rw [if_pos (by omega)]
        · split at h2
          · cases h2
          · rw [if_neg (by omega), if_neg (by omega)]
            exact lexLe_trans as bs cs h1 h2

theorem lexLe_antisymm : ∀ a b : List Nat,
    lexLe a b = true → lexLe b a = true → a = b
  | [], [], _, _ => rfl
  | [], _ :: _, _, h2 => by cases h2
  | _ :: _, [], h1, _ => by cases h1
  | a :: as, b :: bs, h1, h2 => by
    simp only [lexLe] at h1 h2
    by_cases hab : a < b
    · rw [if_neg (by omega), if_pos hab] at h2
      cases h2
    · by_cases hba : b < a
      · rw [if_neg hab, if_pos hba] at h1
        cases h1
      · rw [if_neg hab, if_neg hba] at h1
        rw [if_neg hba, if_neg hab] at h2
        have hv : a = b := by omega
        rw [hv, lexLe_antisymm as bs h1 h2]

theorem lexLt_iff (a b : List Nat) :
    lexLt a b = true ↔ (lexLe a b = true ∧ a ≠ b) := by
  simp only [lexLt, Bool.and_eq_true, Bool.not_eq_true']
  constructor
  · rintro ⟨ha, hb⟩
    refine ⟨ha, fun he => ?_⟩
    subst he
    rw [lexLe_refl] at hb
    cases hb
  · rintro ⟨ha, hb⟩
    refine ⟨ha, ?_⟩
    by_cases hba : lexLe b a = true
    · exact absurd (lexLe_antisymm _ _ ha hba) hb
    · simpa using hba

theorem lexLt_trans (a b c : List Nat) (h1 : lexLt a b = true)
    (h2 : lexLt b c = true) : lexLt a c = true := by
  rw [lexLt_iff] at h1 h2 ⊢
  obtain ⟨hab, hne1⟩ := h1
  obtain ⟨hbc, _⟩ := h2
  refine ⟨lexLe_trans _ _ _ hab hbc, fun he => ?_⟩
  subst he
  exact hne1 (lexLe_antisymm _ _ hab hbc)

theorem markFirsts_map_snd : ∀ (p : Option (List Nat)) (l : List InputInfo),
    (markFirsts p l).map (·.2) = l
  | _, [] => rfl
  | _, x :: xs => by
    simp [markFirsts, markFirsts_map_snd (some x.cellInfo.lockHash) xs]

theorem markFirsts_covers : ∀ (p : Option (List Nat)) (l : List InputInfo)
    (x : InputInfo), x ∈ l →
    (∃ y ∈ markFirsts p l, y.1 = true ∧
      y.2.cellInfo.lockHash = x.cellInfo.lockHash) ∨
      p = some x.cellInfo.lockHash
  | _, [], _, hx => absurd hx (List.not_mem_nil _)
  | p, z :: zs, x, hx => by
    rcases List.mem_cons.mp hx with rfl | hx'
    · by_cases hp : p = some x.cellInfo.lockHash
      · exact Or.inr hp
      · exact Or.inl ⟨(true, x), by simp [markFirsts, hp], rfl, rfl⟩
    · rcases markFirsts_covers (some z.cellInfo.lockHash) zs x hx' with
        ⟨y, hy, hfy, hhy⟩ | hpz
      · exact Or.inl ⟨y, by simp [markFirsts]; exact Or.inr hy, hfy, hhy⟩
      · have hzx : z.cellInfo.lockHash = x.cellInfo.lockHash := Option.some.inj hpz
        by_cases hp : p = some z.cellInfo.lockHash
        · exact Or.inr (hp.trans (by rw [hzx]))
        · exact Or.inl ⟨(true, z), by simp [markFirsts, hp], rfl, hzx⟩

theorem markFirsts_marked_strict : ∀ (p : Option (List Nat)) (l : List InputInfo),
    l.Pairwise hashLeP →
    (∀ h0, p = some h0 → ∀ x ∈ l, lexLe h0 x.cellInfo.lockHash = true) →
    ((((markFirsts p l).filter (·.1)).map (·.2.cellInfo.lockHash)).Pairwise
        fun a b => lexLt a b = true) ∧
    (∀ h0, p = some h0 →
      ∀ h ∈ ((markFirsts p l).filter (·.1)).map (·.2.cellInfo.lockHash),
        lexLt h0 h = true)
  | _, [], _, _ => ⟨by simp [markFirsts], by simp [markFirsts]⟩
  | p, z :: zs, hsort, hbound => by
    have hsort' := (List.pairwise_cons.mp hsort).2
    have hzbound : ∀ x ∈ zs, lexLe z.cellInfo.lockHash x.cellInfo.lockHash = true :=
      (List.pairwise_cons.mp hsort).1
    obtain ⟨ihpw, ihstr⟩ :=
      markFirsts_marked_strict (some z.cellInfo.lockHash) zs hsort'
        (fun h0 he x hx => by
          have hz := Option.some.inj he
          subst hz
          exact hzbound x hx)
    by_cases hp : p = some z.cellInfo.lockHash
    · have hdec : decide (p ≠ some z.cellInfo.lockHash) = false := by simp [hp]
      constructor
      · simpa [markFirsts, hdec] using ihpw
      · intro h0 he h hh
        rw [hp] at he
        have h0z := Option.some.inj he
        subst h0z
        simp only [markFirsts, hdec] at hh
        rw [List.filter_cons_of_neg (by simp)] at hh
        exact ihstr _ rfl h hh
    · have hdec : decide (p ≠ some z.cellInfo.lockHash) = true := by simp [hp]
      have hcons : ((markFirsts p (z :: zs)).filter (·.1)).map
          (·.2.cellInfo.lockHash) =
          z.cellInfo.lockHash ::
            ((markFirsts (some z.cellInfo.lockHash) zs).filter (·.1)).map
              (·.2.cellInfo.lockHash) := by
        simp [markFirsts, hdec]
      constructor
      · rw [hcons]
        exact List.Pairwise.cons (fun h hh => ihstr _ rfl h hh) ihpw
      · intro h0 he h hh
        rw [hcons] at hh
        have hlt0z : lexLt h0 z.cellInfo.lockHash = true := by
          rw [lexLt_iff]
          refine ⟨hbound h0 he z (by simp), fun hcon => ?_⟩
          rw [he, hcon] at hp
          exact hp rfl
        rcases List.mem_cons.mp hh with rfl | hh'
        · exact hlt0z
        · exact lexLt_trans _ _ _ hlt0z (ihstr _ rfl h hh')

theorem pairLeP_total (a b : Bool × InputInfo) : pairLeP a b ∨ pairLeP b a := by
  simp only [pairLeP, pairLe]
  by_cases h : a.1 = b.1
  · rw [if_pos h, if_pos h.symm]
    exact lexLe_total _ _
  · rw [if_neg h, if_neg fun hh => h hh.symm]
    cases ha : a.1 <;> cases hb : b.1 <;> simp_all

theorem pairLeP_trans (a b c : Bool × InputInfo) :
    pairLeP a b → pairLeP b c → pairLeP a c := by
  simp only [pairLeP, pairLe]
  rcases a with ⟨af, ai⟩
  rcases b with ⟨bf, bi⟩
  rcases c with ⟨cf, ci⟩
  cases af <;> cases bf <;> cases cf <;> simp_all <;>
    exact fun h1 h2 => lexLe_trans _ _ _ h1 h2

theorem sorted_split_flags : ∀ (t : List (Bool × InputInfo)), t.Pairwise pairLeP →
    ∃ A B, t = A ++ B ∧ (∀ a ∈ A, a.1 = true) ∧ (∀ b ∈ B, b.1 = false)
  | [], _ => ⟨[], [], rfl, by simp, by simp⟩
  | x :: t', hp => by
    obtain ⟨A', B', rfl, hA, hB⟩ :=
      sorted_split_flags t' (List.pairwise_cons.mp hp).2
    have hx := (List.pairwise_cons.mp hp).1
    by_cases hxf : x.1 = true
    · refine ⟨x :: A', B', rfl, ?_, hB⟩
      intro a ha
      rcases List.mem_cons.mp ha with rfl | ha'
      · exact hxf
      · exact hA a ha'
    · cases A' with
      | nil =>
        refine ⟨[], x :: B', by simp, by simp, ?_⟩
        intro b hb
        rcases List.mem_cons.mp hb with rfl | hb'
        · simpa using hxf
        · exact hB b hb'
      | cons a A'' =>
        exfalso
        have ha := hx a (by simp)
        have hat : a.1 = true := hA a (by simp)
        have hxfalse : x.1 = false := by simpa using hxf
        simp [pairLeP, pairLe, hxfalse, hat] at ha

/-- C2 counterexample: on a batch whose first-seen owner is `exH2` and whose
owner `exH1` holds two inputs, `prepare_inputs` returns the inputs with the
`exH1` group split apart (not contiguous) and the owner list in ascending
lock-hash order `[exH1, exH2]`, not first-seen order `[exH2, exH1]`. -/
theorem claim_C2_counterexample :
    ¬ (consecHashes ((prepare_inputs exBatchC2).2.map (·.cellInfo.lockHash))).Nodup ∧
    (prepare_inputs exBatchC2).1 = [exH1, exH2] ∧
    (prepare_inputs exBatchC2).1 ≠ [exH2, exH1] := by
  decide

/-- C2 amended: `prepare_inputs` returns a permutation of the batch together
with the distinct owner lock hashes in strictly ascending order (not
first-seen order); same-owner inputs are not contiguous in general — instead
the first k returned inputs (k = number of distinct owners) carry exactly the
returned lock hashes position by position (so witness slot i corresponds to
the owner of input i), and the remaining inputs follow sorted by lock
hash. -/
theorem claim_C2_prepare_inputs_amended (l : List InputInfo) :
    ((prepare_inputs l).2).Perm l ∧
    (((prepare_inputs l).2.take (prepare_inputs l).1.length).map
      (·.cellInfo.lockHash) = (prepare_inputs l).1) ∧
    ((prepare_inputs l).1.Pairwise fun a b => lexLt a b = true) ∧
    (∀ h, h ∈ (prepare_inputs l).1 ↔ h ∈ l.map (·.cellInfo.lockHash)) ∧
    (((prepare_inputs l).2.drop (prepare_inputs l).1.length).Pairwise hashLeP) := by
  haveI i1 : IsTrans InputInfo hashLeP := ⟨fun _ _ _ => lexLe_trans _ _ _⟩
  haveI i2 : IsTotal InputInfo hashLeP := ⟨fun _ _ => lexLe_total _ _⟩
  haveI i3 : IsTrans (Bool × InputInfo) pairLeP := ⟨pairLeP_trans⟩
  haveI i4 : IsTotal (Bool × InputInfo) pairLeP := ⟨pairLeP_total⟩
  set s := List.insertionSort hashLeP l with hs
  have hs_perm : s.Perm l := List.perm_insertionSort _ _
  have hs_sorted : s.Pairwise hashLeP := List.sorted_insertionSort hashLeP l
  set m := markFirsts none s with hm
  set t := List.insertionSort pairLeP m with ht
  have ht_perm : t.Perm m := List.perm_insertionSort _ _
  have ht_sorted : t.Pairwise pairLeP := List.sorted_insertionSort pairLeP m
  obtain ⟨A, B, hAB, hAt, hBf⟩ := sorted_split_flags t ht_sorted
  have hfilter : t.filter (·.1) = A := by
    rw [hAB, List.filter_append, List.filter_eq_self.mpr hAt,
      List.filter_eq_nil_iff.mpr (fun b hb => by simp [hBf b hb]), List.append_nil]
  have hpi : prepare_inputs l =
      (A.map (·.2.cellInfo.lockHash), t.map (·.2)) := by
    simp only [prepare_inputs]
    rw [← hs, ← hm, ← ht, hfilter]
  rw [hpi]
  have hmap_m : m.map (·.2) = s := markFirsts_map_snd none s
  have hM := markFirsts_marked_strict none s hs_sorted
    (fun h0 he => absurd he (by simp))
  have hfilter_perm : (t.filter (·.1)).Perm (m.filter (·.1)) := ht_perm.filter _
  refine ⟨?_, ?_, ?_, ?_, ?_⟩
  · show ((t.map (·.2)).Perm l)
    exact ((ht_perm.map _).trans (hmap_m ▸ List.Perm.refl _)).trans hs_perm
  · show (((t.map (·.2)).take (A.map (·.2.cellInfo.lockHash)).length).map
      (·.cellInfo.lockHash) = A.map (·.2.cellInfo.lockHash))
    rw [hAB, List.map_append]
    have hlh : (A.map (·.2.cellInfo.lockHash)).length = (A.map (·.2)).length := by
      simp
    rw [hlh, List.take_left, List.map_map]
    rfl
  · show (A.map (·.2.cellInfo.lockHash)).Pairwise fun a b => lexLt a b = true
    have hpermA : (A.map (·.2.cellInfo.lockHash)).Perm
        ((m.filter (·.1)).map (·.2.cellInfo.lockHash)) := by
      have h2 := hfilter_perm
      rw [hfilter] at h2
      exact h2.map _
    have hnodupM : ((m.filter (·.1)).map (·.2.cellInfo.lockHash)).Nodup :=
      hM.1.imp (fun hab => ((lexLt_iff _ _).mp hab).2)
    have hnodupA : (A.map (·.2.cellInfo.lockHash)).Nodup :=
      (hpermA.nodup_iff).mpr hnodupM
    have hApw : A.Pairwise pairLeP := by
      rw [hAB] at ht_sorted
      exact (List.pairwise_append.mp ht_sorted).1
    have hsortedA : (A.map (·.2.cellInfo.lockHash)).Pairwise
        fun a b => lexLe a b = true := by
      rw [List.pairwise_map]
      refine hApw.imp_of_mem ?_
      intro x y hx hy hxy
      have h1 := hAt _ hx
      have h2 := hAt _ hy
      simpa [pairLeP, pairLe, h1, h2] using hxy
    exact (hsortedA.and hnodupA).imp
      (fun hab => (lexLt_iff _ _).mpr ⟨hab.1, hab.2⟩)
  · intro h
    show h ∈ A.map (·.2.cellInfo.lockHash) ↔ h ∈ l.map (·.cellInfo.lockHash)
    constructor
    · intro hh
      obtain ⟨a, ha, rfl⟩ := List.mem_map.mp hh
      have hat : a ∈ t := by
        rw [hAB]
        exact List.mem_append_left _ ha
      have ham : a ∈ m := ht_perm.mem_iff.mp hat
      have has : a.2 ∈ s := by
        rw [← hmap_m]
        exact List.mem_map_of_mem _ ham
      exact List.mem_map_of_mem _ (hs_perm.mem_iff.mp has)
    · intro hh
      obtain ⟨x, hx, rfl⟩ := List.mem_map.mp hh
      have hxs : x ∈ s := hs_perm.mem_iff.mpr hx
      rcases markFirsts_covers none s x hxs with ⟨y, hy, hfy, hhy⟩ | hcon
      · have h1 : y ∈ m.filter (·.1) := List.mem_filter.mpr ⟨hy, by simp [hfy]⟩
        have h2 : y ∈ t.filter (·.1) := hfilter_perm.mem_iff.mpr h1
        rw [hfilter] at h2
        have h3 := List.mem_map_of_mem (·.2.cellInfo.lockHash) h2
        simpa only [hhy] using h3
      · cases hcon
  · show ((t.map (·.2)).drop (A.map (·.2.cellInfo.lockHash)).length).Pairwise hashLeP
    rw [hAB, List.map_append]
    have hlh : (A.map (·.2.cellInfo.lockHash)).length = (A.map (·.2)).length := by
      simp
    rw [hlh, List.drop_left, List.pairwise_map]
    have hBpw : B.Pairwise pairLeP := by
      rw [hAB] at ht_sorted
      exact (List.pairwise_append.mp ht_sorted).2.1
    refine hBpw.imp_of_mem ?_
    intro x y hx hy hxy
    have h1 := hBf _ hx
    have h2 := hBf _ hy
    simpa [pairLeP, pairLe, hashLeP, h1, h2] using hxy

/-- Witness for C2's amended statement at the concrete three-input batch. -/
theorem claim_C2_prepare_inputs_amended_witness :
    ((prepare_inputs exBatchC2).2).Perm exBatchC2 ∧
    (((prepare_inputs exBatchC2).2.take (prepare_inputs exBatchC2).1.length).map
      (·.cellInfo.lockHash) = (prepare_inputs exBatchC2).1) ∧
    ((prepare_inputs exBatchC2).1.Pairwise fun a b => lexLt a b = true) ∧
    (∀ h, h ∈ (prepare_inputs exBatchC2).1 ↔
      h ∈ exBatchC2.map (·.cellInfo.lockHash)) ∧
    (((prepare_inputs exBatchC2).2.drop
      (prepare_inputs exBatchC2).1.length).Pairwise hashLeP) :=
  claim_C2_prepare_inputs_amended exBatchC2

end CkbSim
